import Mathlib

/-!
Verification of the SR1.5 global emissions statistics notebook
(`sr15_2.3.3_global_emissions_statistics.ipynb`).

A scenario's time series is embedded as a list of `(year, value)` pairs,
where a value of `none` models a missing entry (NaN in the source data).
Numeric values are modelled as rationals.
-/

namespace SR15

/-- Result of `year_of_net_zero`.  The Python function returns either a
finite crossing year (`year`) or `np.inf` (`inf`).  When the crossing branch
is reached with `prev_yr` still `np.nan`, the slope arithmetic is
NaN-poisoned and `int(...)` on NaN raises, so no well-defined year is
produced; that path is modelled by `undefined`. -/
inductive NZResult where
  | year (y : ℤ)
  | inf
  | undefined
deriving DecidableEq, Repr

/-- Python's `int()` on a float truncates toward zero. -/
def truncQ (q : ℚ) : ℤ := if 0 ≤ q then ⌊q⌋ else ⌈q⌉

/-- Loop of `year_of_net_zero`: walks the `(yr, val)` pairs carrying
`prev_val` (initially `0`) and `prev_yr` (initially `np.nan`, modelled as
`none`).  Missing values are skipped without touching the state.  On the
first value strictly below the threshold it returns
`prev_yr + int((threshold - prev_val) / x) + 1` where
`x = (val - prev_val) / (yr - prev_yr)`; exhausting the list yields `inf`. -/
def netZeroGo (threshold : ℚ) : List (ℤ × Option ℚ) → ℚ → Option ℤ → NZResult
  | [], _, _ => .inf
  | (_, none) :: rest, prevVal, prevYr => netZeroGo threshold rest prevVal prevYr
  | (yr, some val) :: rest, prevVal, prevYr =>
    if val < threshold then
      match prevYr with
      | none => .undefined
      | some py =>
        .year (py + truncQ ((threshold - prevVal) / ((val - prevVal) / ((yr : ℚ) - (py : ℚ)))) + 1)
    else netZeroGo threshold rest val (some yr)

/-- `year_of_net_zero(data, years, threshold)` from the notebook, with the
zipped `(years, data)` pairs given as one list. -/
def year_of_net_zero (series : List (ℤ × Option ℚ)) (threshold : ℚ) : NZResult :=
  netZeroGo threshold series 0 none

/-- `(data[j] - data[i]) / (j - i)` from `add_statistics`; a missing value
at either endpoint propagates (pandas NaN arithmetic). -/
def abs_ann_change (vi vj : Option ℚ) (i j : ℤ) : Option ℚ :=
  match vi, vj with
  | some a, some b => some ((b - a) / ((j : ℚ) - (i : ℚ)))
  | _, _ => none

/-- Last non-missing `(year, value)` pair of a series prefix. -/
def lastValid : List (ℤ × Option ℚ) → Option (ℤ × ℚ)
  | [] => none
  | p :: rest =>
    match lastValid rest with
    | some r => some r
    | none => match p.2 with | some v => some (p.1, v) | none => none

/-- First non-missing `(year, value)` pair of a series. -/
def firstValid : List (ℤ × Option ℚ) → Option (ℤ × ℚ)
  | [] => none
  | (yr, some v) :: _ => some (yr, v)
  | (_, none) :: rest => firstValid rest

/-- The `(prev_val, prev_yr)` loop state after scanning a list of pairs:
each non-missing pair overwrites the state, missing pairs leave it alone. -/
def foldState (l : List (ℤ × Option ℚ)) (s : ℚ × Option ℤ) : ℚ × Option ℤ :=
  l.foldl (fun s p => match p.2 with | some v => (v, some p.1) | none => s) s

/-- Loop state and current pair at the moment the crossing branch of
`year_of_net_zero` fires. -/
structure CrossPoint where
  prevVal : ℚ
  prevYr : Option ℤ
  yr : ℤ
  val : ℚ
deriving DecidableEq, Repr

/-- Observer mirroring `netZeroGo`: returns the loop state and pair at the
first value strictly below the threshold, or `none` if no value crosses. -/
def crossGo (threshold : ℚ) : List (ℤ × Option ℚ) → ℚ → Option ℤ → Option CrossPoint
  | [], _, _ => none
  | (_, none) :: rest, prevVal, prevYr => crossGo threshold rest prevVal prevYr
  | (yr, some val) :: rest, prevVal, prevYr =>
    if val < threshold then some ⟨prevVal, prevYr, yr, val⟩
    else crossGo threshold rest val (some yr)

/-- Crossing state of a full series, starting from the initial loop state. -/
def crossState (series : List (ℤ × Option ℚ)) (threshold : ℚ) : Option CrossPoint :=
  crossGo threshold series 0 none

/-- Variant of the crossing loop using mathematical floor in place of
Python `int()` truncation; reference point for the floor/truncation claims. -/
def netZeroGoFloor (threshold : ℚ) : List (ℤ × Option ℚ) → ℚ → Option ℤ → NZResult
  | [], _, _ => .inf
  | (_, none) :: rest, prevVal, prevYr => netZeroGoFloor threshold rest prevVal prevYr
  | (yr, some val) :: rest, prevVal, prevYr =>
    if val < threshold then
      match prevYr with
      | none => .undefined
      | some py =>
        .year (py + ⌊(threshold - prevVal) / ((val - prevVal) / ((yr : ℚ) - (py : ℚ)))⌋ + 1)
    else netZeroGoFloor threshold rest val (some yr)

/-- Floor-division counterpart of `year_of_net_zero`. -/
def year_of_net_zero_floor (series : List (ℤ × Option ℚ)) (threshold : ℚ) : NZResult :=
  netZeroGoFloor threshold series 0 none

/-- Sorting a series by year (stable insertion sort on the year key). -/
def sortByYear (series : List (ℤ × Option ℚ)) : List (ℤ × Option ℚ) :=
  series.insertionSort (fun a b => a.1 ≤ b.1)

/-! ### Cohort statistics aggregation

The notebook hands the per-scenario values to `pyam.Statistics`
(`stats.add`, then `stats.summarize(center='median', interquartile=True,
custom_format='{:.1f}')`) and, per its own markdown note, the published
range formatting was applied manually ex-post.  The aggregation and
formatting below are therefore modelled from the spec. -/

/-- Non-missing values contributing to a cell. -/
def validValues (vals : List (Option ℚ)) : List ℚ := vals.filterMap id

/-- Modelled from the spec: the count of a cell includes only non-missing
contributions (pandas-style count, not in `src/`). -/
def countValid (vals : List (Option ℚ)) : ℕ := (vals.filter fun v => v.isSome).length

/-- Minimum of a list of values (0 for an empty list, never used there). -/
def listMin : List ℚ → ℚ
  | [] => 0
  | x :: xs => xs.foldl min x

/-- Maximum of a list of values (0 for an empty list, never used there). -/
def listMax : List ℚ → ℚ
  | [] => 0
  | x :: xs => xs.foldl max x

/-- Modelled from the spec: linear-interpolation quantile (pandas default)
of a list of values, exact over the rationals. -/
def quantile (l : List ℚ) (p : ℚ) : ℚ :=
  let s := l.insertionSort (· ≤ ·)
  match s with
  | [] => 0
  | _ :: _ =>
    let h : ℚ := p * ((s.length : ℚ) - 1)
    let k : ℕ := (⌊h⌋).toNat
    let a := s.getD k 0
    let b := s.getD (k + 1) a
    a + (h - (k : ℚ)) * (b - a)

/-- Rounding to one decimal place, modelling the `'{:.1f}'` format. -/
def round1 (q : ℚ) : ℚ := (⌊q * 10 + 1 / 2⌋ : ℚ) / 10

/-- A formatted summary cell of the output table. -/
inductive Cell where
  | empty
  | fullRange (lo hi : ℚ)
  | iqrMedian (q1 med q3 : ℚ)
deriving DecidableEq, Repr

/-- Modelled from the spec: the ex-post cell formatting rule of Table 2.4
(not in `src/`; the notebook markdown documents it).  A cell with fewer
than 7 contributing scenarios shows the full range, otherwise the
interquartile range and median to one decimal place; an empty cohort gives
a placeholder cell. -/
def formatCell (vals : List (Option ℚ)) : Cell :=
  let v := validValues vals
  if v.length = 0 then .empty
  else if v.length < 7 then .fullRange (listMin v) (listMax v)
  else .iqrMedian (round1 (quantile v (1 / 4))) (round1 (quantile v (1 / 2)))
    (round1 (quantile v (3 / 4)))

/-- One cell of the summary table: the non-missing count and the formatted
distributional summary. -/
structure CellSummary where
  count : ℕ
  cell : Cell
deriving DecidableEq, Repr

/-- Summarize the per-scenario values contributing to one cell. -/
def summarizeCell (vals : List (Option ℚ)) : CellSummary :=
  ⟨countValid vals, formatCell vals⟩

/-- Value of a series at a given year (`none` when the year is absent). -/
def lookupYear (series : List (ℤ × Option ℚ)) (y : ℤ) : Option ℚ :=
  match series.find? (fun p => p.1 = y) with
  | some p => p.2
  | none => none

/-- Annual-change indicator of one scenario for the year pair `(i, j)`. -/
def annChangeRow (series : List (ℤ × Option ℚ)) (i j : ℤ) : Option ℚ :=
  abs_ann_change (lookupYear series i) (lookupYear series j) i j

/-- The full computation on one input table: for every cohort (a list of
scenario series), the summary cells of the annual-change indicators for
each compare-year pair together with the per-scenario net-zero years. -/
def computeSummary (cohorts : List (List (List (ℤ × Option ℚ))))
    (compareYears : List (ℤ × ℤ)) : List (List CellSummary × List NZResult) :=
  cohorts.map fun rows =>
    (compareYears.map fun ij =>
      summarizeCell (rows.map fun s => annChangeRow s ij.1 ij.2),
     rows.map fun s => year_of_net_zero s 0)

/-! ### Helper lemmas -/

lemma netZeroGo_inf_of_no_below (t : ℚ) :
    ∀ (l : List (ℤ × Option ℚ)) (pv : ℚ) (py : Option ℤ),
    (∀ p ∈ l, ∀ q, p.2 = some q → ¬ q < t) → netZeroGo t l pv py = .inf := by
  intro l
  induction l with
  | nil => intro pv py _; rfl
  | cons p rest ih =>
    intro pv py h
    obtain ⟨yr, v⟩ := p
    match v with
    | none => exact ih pv py fun p hp => h p (List.mem_cons_of_mem _ hp)
    | some q =>
      have hq : ¬ q < t := h (yr, some q) (List.mem_cons_self _ _) q rfl
      simp only [netZeroGo, if_neg hq]
      exact ih q (some yr) fun p hp => h p (List.mem_cons_of_mem _ hp)

lemma netZeroGo_skip_none (t : ℚ) :
    ∀ (l : List (ℤ × Option ℚ)) (pv : ℚ) (py : Option ℤ),
    netZeroGo t l pv py = netZeroGo t (l.filter fun p => p.2.isSome) pv py := by
  intro l
  induction l with
  | nil => intro pv py; rfl
  | cons p rest ih =>
    intro pv py
    obtain ⟨yr, v⟩ := p
    match v with
    | none => simpa [List.filter_cons, netZeroGo] using ih pv py
    | some q =>
      by_cases hq : q < t
      · simp [List.filter_cons, netZeroGo, if_pos hq]
      · simpa [List.filter_cons, netZeroGo, if_neg hq] using ih q (some yr)

lemma netZeroGo_undefined_of_first_below (t : ℚ) :
    ∀ (l : List (ℤ × Option ℚ)) (pv : ℚ) (y : ℤ) (v : ℚ),
    firstValid l = some (y, v) → v < t → netZeroGo t l pv none = .undefined := by
  intro l
  induction l with
  | nil => intro pv y v h; exact absurd h (by simp [firstValid])
  | cons p rest ih =>
    intro pv y v h hv
    obtain ⟨yr, w⟩ := p
    match w with
    | none => exact ih pv y v (by simpa [firstValid] using h) hv
    | some q =>
      have : yr = y ∧ q = v := by simpa [firstValid] using h
      obtain ⟨rfl, rfl⟩ := this
      simp [netZeroGo, if_pos hv]

lemma foldState_id_of_lastValid_none :
    ∀ (l : List (ℤ × Option ℚ)), lastValid l = none → ∀ s, foldState l s = s := by
  intro l
  induction l with
  | nil => intro _ s; rfl
  | cons p rest ih =>
    intro h s
    obtain ⟨yr, v⟩ := p
    match v with
    | none =>
      have hrest : lastValid rest = none := by
        revert h; simp only [lastValid]
        match lastValid rest with
        | some r => intro h; exact absurd h (by simp)
        | none => intro _; rfl
      simpa [foldState] using ih hrest s
    | some q =>
      exfalso
      revert h; simp only [lastValid]
      match lastValid rest with
      | some r => simp
      | none => simp

lemma foldState_of_lastValid :
    ∀ (l : List (ℤ × Option ℚ)) (py : ℤ) (pv : ℚ), lastValid l = some (py, pv) →
    ∀ s, foldState l s = (pv, some py) := by
  intro l
  induction l with
  | nil => intro py pv h; exact absurd h (by simp [lastValid])
  | cons p rest ih =>
    intro py pv h s
    obtain ⟨yr, v⟩ := p
    rcases hrest : lastValid rest with _ | r
    · rcases v with _ | q
      · exfalso; revert h; simp [lastValid, hrest]
      · have : yr = py ∧ q = pv := by
          revert h; simp [lastValid, hrest]
        obtain ⟨rfl, rfl⟩ := this
        simpa [foldState] using foldState_id_of_lastValid_none rest hrest _
    · have hr : r = (py, pv) := by
        revert h; simp [lastValid, hrest]
      subst hr
      rcases v with _ | q
      · simpa [foldState] using ih py pv hrest s
      · simpa [foldState] using ih py pv hrest (q, some yr)

lemma lastValid_mem :
    ∀ (l : List (ℤ × Option ℚ)) (py : ℤ) (pv : ℚ), lastValid l = some (py, pv) →
    (py, some pv) ∈ l := by
  intro l
  induction l with
  | nil => intro py pv h; exact absurd h (by simp [lastValid])
  | cons p rest ih =>
    intro py pv h
    rcases hrest : lastValid rest with _ | r
    · obtain ⟨yr, v⟩ := p
      rcases v with _ | q
      · exfalso; revert h; simp [lastValid, hrest]
      · have : yr = py ∧ q = pv := by revert h; simp [lastValid, hrest]
        obtain ⟨rfl, rfl⟩ := this
        exact List.mem_cons_self _ _
    · have hr : r = (py, pv) := by
        revert h; simp only [lastValid, hrest]
        intro h; exact Option.some.inj h
      subst hr
      exact List.mem_cons_of_mem _ (ih py pv hrest)

lemma netZeroGo_append (t : ℚ) :
    ∀ (l rest : List (ℤ × Option ℚ)) (pv : ℚ) (py : Option ℤ),
    (∀ p ∈ l, ∀ q, p.2 = some q → ¬ q < t) →
    netZeroGo t (l ++ rest) pv py =
      netZeroGo t rest (foldState l (pv, py)).1 (foldState l (pv, py)).2 := by
  intro l
  induction l with
  | nil => intro rest pv py _; rfl
  | cons p l ih =>
    intro rest pv py h
    obtain ⟨yr, v⟩ := p
    match v with
    | none =>
      simpa [foldState, netZeroGo] using
        ih rest pv py fun p hp => h p (List.mem_cons_of_mem _ hp)
    | some q =>
      have hq : ¬ q < t := h (yr, some q) (List.mem_cons_self _ _) q rfl
      simp only [List.cons_append, netZeroGo, if_neg hq, foldState, List.foldl_cons]
      exact ih rest q (some yr) fun p hp => h p (List.mem_cons_of_mem _ hp)

lemma countValid_eq_length_validValues :
    ∀ (vals : List (Option ℚ)), countValid vals = (validValues vals).length := by
  intro vals
  induction vals with
  | nil => rfl
  | cons v rest ih =>
    rcases v with _ | q <;>
      simp [countValid, validValues, List.filter_cons, ih] at ih ⊢ <;> omega

lemma quot_nonneg {t v pv yq pyq : ℚ} (hv : v < t) (hpv : t ≤ pv) (hy : pyq < yq) :
    0 ≤ (t - pv) / ((v - pv) / (yq - pyq)) := by
  rw [div_div_eq_mul_div]
  rcases div_nonneg_iff (α := ℚ) with h
  refine h.mpr (Or.inr ⟨?_, by linarith⟩)
  nlinarith

lemma quot_lt {t v pv yq pyq : ℚ} (hv : v < t) (hpv : t ≤ pv) (hy : pyq < yq) :
    (t - pv) / ((v - pv) / (yq - pyq)) < yq - pyq := by
  rw [div_div_eq_mul_div]
  rw [div_lt_iff_of_neg (by linarith : v - pv < 0)]
  nlinarith

lemma truncQ_eq_floor {q : ℚ} (h : 0 ≤ q) : truncQ q = ⌊q⌋ := by
  simp [truncQ, if_pos h]

lemma crossGo_mem (t : ℚ) :
    ∀ (l : List (ℤ × Option ℚ)) (pv : ℚ) (py : Option ℤ) (c : CrossPoint),
    crossGo t l pv py = some c → (c.yr, some c.val) ∈ l := by
  intro l
  induction l with
  | nil => intro pv py c h; exact absurd h (by simp [crossGo])
  | cons p rest ih =>
    intro pv py c h
    obtain ⟨yr, v⟩ := p
    match v with
    | none => exact List.mem_cons_of_mem _ (ih pv py c (by simpa [crossGo] using h))
    | some w =>
      by_cases hw : w < t
      · have : c = ⟨pv, py, yr, w⟩ := by simpa [crossGo, if_pos hw] using h.symm
        subst this
        exact List.mem_cons_self _ _
      · exact List.mem_cons_of_mem _ (ih w (some yr) c (by simpa [crossGo, if_neg hw] using h))

lemma crossGo_spec (t : ℚ) :
    ∀ (l : List (ℤ × Option ℚ)) (pv : ℚ) (py : Option ℤ),
    t ≤ pv →
    (∀ p, py = some p → ∀ q ∈ l, p < q.1) →
    List.Pairwise (fun a b : ℤ × Option ℚ => a.1 < b.1) l →
    (∀ c, crossGo t l pv py = some c →
      t ≤ c.prevVal ∧ c.val < t ∧ (∀ p, c.prevYr = some p → p < c.yr)) ∧
    (∀ c, crossGo t l pv py = some c →
      netZeroGo t l pv py = (match c.prevYr with
        | none => NZResult.undefined
        | some p => NZResult.year
            (p + truncQ ((t - c.prevVal) / ((c.val - c.prevVal) / ((c.yr : ℚ) - (p : ℚ)))) + 1))) ∧
    (crossGo t l pv py = none → netZeroGo t l pv py = .inf) := by
  intro l
  induction l with
  | nil =>
    intro pv py _ _ _
    refine ⟨fun c h => absurd h (by simp [crossGo]), fun c h => absurd h (by simp [crossGo]),
      fun _ => rfl⟩
  | cons p rest ih =>
    intro pv py hpv hpy hpair
    obtain ⟨yr, v⟩ := p
    have hpair' : List.Pairwise (fun a b : ℤ × Option ℚ => a.1 < b.1) rest :=
      (List.pairwise_cons.mp hpair).2
    match v with
    | none =>
      have hpy' : ∀ p, py = some p → ∀ q ∈ rest, p < q.1 :=
        fun p hp q hq => hpy p hp q (List.mem_cons_of_mem _ hq)
      simpa [crossGo, netZeroGo] using ih pv py hpv hpy' hpair'
    | some w =>
      by_cases hw : w < t
      · refine ⟨fun c hc => ?_, fun c hc => ?_, fun hc => ?_⟩
        · have : c = ⟨pv, py, yr, w⟩ := by
            simpa [crossGo, if_pos hw] using hc.symm
          subst this
          refine ⟨hpv, hw, fun p' hp' => ?_⟩
          exact hpy p' hp' (yr, some w) (List.mem_cons_self _ _)
        · have : c = ⟨pv, py, yr, w⟩ := by
            simpa [crossGo, if_pos hw] using hc.symm
          subst this
          rcases py with _ | p <;> simp [netZeroGo, if_pos hw]
        · exact absurd hc (by simp [crossGo, if_pos hw])
      · have hyrlt : ∀ q ∈ rest, yr < q.1 := (List.pairwise_cons.mp hpair).1
        have hpy' : ∀ p, some yr = some p → ∀ q ∈ rest, p < q.1 := by
          intro p hp q hq
          have : yr = p := by simpa using hp
          subst this
          exact hyrlt q hq
        have hres := ih w (some yr) (le_of_not_lt hw) hpy' hpair'
        refine ⟨fun c hc => ?_, fun c hc => ?_, fun hc => ?_⟩
        · have hc' : crossGo t rest w (some yr) = some c := by
            simpa [crossGo, if_neg hw] using hc
          exact hres.1 c hc'
        · have hc' : crossGo t rest w (some yr) = some c := by
            simpa [crossGo, if_neg hw] using hc
          simpa [netZeroGo, if_neg hw] using hres.2.1 c hc'
        · have hc' : crossGo t rest w (some yr) = none := by
            simpa [crossGo, if_neg hw] using hc
          simpa [netZeroGo, if_neg hw] using hres.2.2 hc'

lemma netZeroGo_eq_floor (t : ℚ) :
    ∀ (l : List (ℤ × Option ℚ)) (pv : ℚ) (py : Option ℤ),
    t ≤ pv →
    (∀ p, py = some p → ∀ q ∈ l, p < q.1) →
    List.Pairwise (fun a b : ℤ × Option ℚ => a.1 < b.1) l →
    netZeroGo t l pv py = netZeroGoFloor t l pv py := by
  intro l
  induction l with
  | nil => intro pv py _ _ _; rfl
  | cons p rest ih =>
    intro pv py hpv hpy hpair
    obtain ⟨yr, v⟩ := p
    have hpair' : List.Pairwise (fun a b : ℤ × Option ℚ => a.1 < b.1) rest :=
      (List.pairwise_cons.mp hpair).2
    match v with
    | none =>
      simpa [netZeroGo, netZeroGoFloor] using ih pv py hpv
        (fun p hp q hq => hpy p hp q (List.mem_cons_of_mem _ hq)) hpair'
    | some w =>
      by_cases hw : w < t
      · simp only [netZeroGo, netZeroGoFloor, if_pos hw]
        rcases py with _ | p
        · rfl
        · have hplt : p < yr := hpy p rfl (yr, some w) (List.mem_cons_self _ _)
          have hq : 0 ≤ (t - pv) / ((w - pv) / ((yr : ℚ) - (p : ℚ))) :=
            quot_nonneg hw hpv (by exact_mod_cast hplt)
          simp [truncQ_eq_floor hq]
      · simp only [netZeroGo, netZeroGoFloor, if_neg hw]
        refine ih w (some yr) (le_of_not_lt hw) ?_ hpair'
        intro p hp q hq
        have : yr = p := by simpa using hp
        subst this
        exact (List.pairwise_cons.mp hpair).1 q hq

/-! ### Claim theorems -/

/-- Claim C2: for every scenario series in which no non-missing value is
strictly below the threshold, `year_of_net_zero` returns positive infinity
after exhausting all `(year, value)` pairs. -/
theorem c2_no_crossing_returns_inf (series : List (ℤ × Option ℚ)) (t : ℚ)
    (h : ∀ p ∈ series, ∀ q, p.2 = some q → ¬ q < t) :
    year_of_net_zero series t = NZResult.inf :=
  netZeroGo_inf_of_no_below t series 0 none h

/-- Witness for C2 at a concrete series that never goes below 0. -/
theorem c2_witness :
    year_of_net_zero
      [((2020 : ℤ), some (1 : ℚ)), (2030, some 2), (2040, none), (2050, some 0)] 0 =
      NZResult.inf := by
  refine c2_no_crossing_returns_inf _ 0 ?_
  intro p hp q hq
  simp only [List.mem_cons, List.not_mem_nil, or_false] at hp
  rcases hp with rfl | rfl | rfl | rfl <;> simp_all <;> linarith

/-- Claim C4: for every year pair `(i, j)` with `i < j` and both endpoint
values present, the absolute annual change equals
`(value[j] - value[i]) / (j - i)`. -/
theorem c4_annual_change_formula (a b : ℚ) (i j : ℤ) (_hij : i < j) :
    abs_ann_change (some a) (some b) i j = some ((b - a) / ((j : ℚ) - (i : ℚ))) := rfl

/-- Witness for C4: pair (2010, 2030) with values 10.0 and 0.0 gives -0.5. -/
theorem c4_witness :
    abs_ann_change (some 10) (some 0) 2010 2030 = some (-(1 : ℚ) / 2) := by
  rw [c4_annual_change_formula 10 0 2010 2030 (by norm_num)]
  norm_num

/-- Claim C5: when the very first non-missing value of a series is already
strictly below the threshold, the crossing computation runs against the
undefined initial `prev_yr`, so no well-defined crossing year is returned
(the NaN-poisoned arithmetic is modelled by `NZResult.undefined`). -/
theorem c5_first_below_undefined (series : List (ℤ × Option ℚ)) (t : ℚ) (y : ℤ) (v : ℚ)
    (hfirst : firstValid series = some (y, v)) (hv : v < t) :
    year_of_net_zero series t = NZResult.undefined ∧
    ∀ z, year_of_net_zero series t ≠ NZResult.year z := by
  have h : year_of_net_zero series t = NZResult.undefined :=
    netZeroGo_undefined_of_first_below t series 0 y v hfirst hv
  exact ⟨h, fun z hz => by rw [h] at hz; exact absurd hz (by simp)⟩

/-- Witness for C5 at a series whose first observed value is below 0. -/
theorem c5_witness :
    year_of_net_zero [((2020 : ℤ), none), (2030, some (-(1 : ℚ)))] 0 =
      NZResult.undefined :=
  (c5_first_below_undefined [((2020 : ℤ), none), (2030, some (-(1 : ℚ)))] 0 2030 (-1)
    rfl (by norm_num)).1

/-- Claim C6: missing values are skipped without updating `prev_val` or
`prev_yr`: the result on a series with missing entries equals the result on
the same series with those entries removed. -/
theorem c6_missing_skipped (series : List (ℤ × Option ℚ)) (t : ℚ) :
    year_of_net_zero series t =
      year_of_net_zero (series.filter fun p => p.2.isSome) t :=
  netZeroGo_skip_none t series 0 none

/-- Claim C7: a missing value at either endpoint makes the annual-change
result missing (never zero), and a missing contribution is excluded from a
cell's statistic while the count includes only non-missing contributions. -/
theorem c7_missing_excluded :
    (∀ (x : Option ℚ) (i j : ℤ),
      abs_ann_change none x i j = none ∧ abs_ann_change x none i j = none ∧
      abs_ann_change none x i j ≠ some 0 ∧ abs_ann_change x none i j ≠ some 0) ∧
    (∀ vals : List (Option ℚ),
      countValid vals = (validValues vals).length ∧
      summarizeCell (vals ++ [none]) = summarizeCell vals) := by
  constructor
  · intro x i j
    have h1 : abs_ann_change none x i j = none := by cases x <;> rfl
    have h2 : abs_ann_change x none i j = none := by cases x <;> rfl
    exact ⟨h1, h2, by rw [h1]; simp, by rw [h2]; simp⟩
  · intro vals
    have hv : validValues (vals ++ [none]) = validValues vals := by
      simp [validValues]
    have hc : countValid (vals ++ [none]) = countValid vals := by
      simp [countValid, List.filter_append]
    refine ⟨countValid_eq_length_validValues vals, ?_⟩
    simp [summarizeCell, formatCell, hv, hc]

/-- Witness for C7 at a concrete missing endpoint and a concrete cell. -/
theorem c7_witness :
    abs_ann_change none (some 5) 2010 2030 = none ∧
    summarizeCell ([some (1 : ℚ), none] ++ [none]) = summarizeCell [some (1 : ℚ), none] :=
  ⟨(c7_missing_excluded.1 (some 5) 2010 2030).1, (c7_missing_excluded.2 [some 1, none]).2⟩

/-- Claim C10: the computation is deterministic and idempotent — two runs
of the indicator calculation and cohort aggregation on identical input
tables produce identical output summary tables. -/
theorem c10_deterministic (a b : List (List (List (ℤ × Option ℚ))))
    (ys zs : List (ℤ × ℤ)) (hab : a = b) (hyz : ys = zs) :
    computeSummary a ys = computeSummary b zs := by rw [hab, hyz]

/-- Witness for C10 at a concrete one-cohort input. -/
theorem c10_witness :
    computeSummary [[[((2020 : ℤ), some (1 : ℚ)), (2030, some (-1))]]] [(2020, 2030)] =
      computeSummary [[[((2020 : ℤ), some (1 : ℚ)), (2030, some (-1))]]] [(2020, 2030)] :=
  c10_deterministic _ _ _ _ rfl rfl

/-- Claim C1: with threshold 0, when the first below-threshold value is
reached at year `y` with value `v` and the last preceding non-missing point
is `(py, pv)`, the function returns
`py + floor((0 - pv) / slope) + 1` with `slope = (v - pv) / (y - py)`. -/
theorem c1_interpolation_formula (pre rest : List (ℤ × Option ℚ)) (y py : ℤ) (v pv : ℚ)
    (hpre : ∀ p ∈ pre, ∀ q, p.2 = some q → ¬ q < 0)
    (hlast : lastValid pre = some (py, pv))
    (hv : v < 0) (hy : py < y) :
    year_of_net_zero (pre ++ (y, some v) :: rest) 0 =
      NZResult.year (py + ⌊((0 : ℚ) - pv) / ((v - pv) / ((y : ℚ) - (py : ℚ)))⌋ + 1) := by
  have hfold := foldState_of_lastValid pre py pv hlast (0, none)
  have happ : year_of_net_zero (pre ++ (y, some v) :: rest) 0 =
      netZeroGo 0 ((y, some v) :: rest) (foldState pre (0, none)).1 (foldState pre (0, none)).2 :=
    netZeroGo_append 0 pre ((y, some v) :: rest) 0 none hpre
  rw [happ, hfold]
  have hpv : (0 : ℚ) ≤ pv := by
    have := hpre (py, some pv) (lastValid_mem pre py pv hlast) pv rfl
    linarith
  have hq : 0 ≤ ((0 : ℚ) - pv) / ((v - pv) / ((y : ℚ) - (py : ℚ))) :=
    quot_nonneg hv hpv (by exact_mod_cast hy)
  simp [netZeroGo, if_pos hv, truncQ_eq_floor hq]
  exact truncQ_eq_floor (by simpa using hq)

/-- Witness for C1: years [2020, 2030] with values [1.0, -1.0] give 2026. -/
theorem c1_witness :
    year_of_net_zero [((2020 : ℤ), some (1 : ℚ)), (2030, some (-1))] 0 =
      NZResult.year 2026 := by
  have h := c1_interpolation_formula [((2020 : ℤ), some (1 : ℚ))] [] 2030 2020 (-1) 1
    (by intro p hp q hq; simp only [List.mem_singleton] at hp; subst hp
        simp only [Option.some.injEq] at hq; subst hq; norm_num)
    rfl (by norm_num) (by norm_num)
  rw [show ([((2020 : ℤ), some (1 : ℚ)), (2030, some (-1))] : List (ℤ × Option ℚ)) =
      [((2020 : ℤ), some (1 : ℚ))] ++ (2030, some (-1)) :: [] from rfl, h]
  have harg : ((0 : ℚ) - 1) / (((-1 : ℚ) - 1) / (((2030 : ℤ) : ℚ) - ((2020 : ℤ) : ℚ))) = 5 := by
    norm_num
  rw [harg, show ((5 : ℚ) = ((5 : ℤ) : ℚ)) from by norm_num, Int.floor_intCast]
  norm_num

/-- Claim C8: for any threshold at most 0 on a series with strictly
increasing years, the loop keeps `prev_val` at or above the threshold, so
at every crossing the interpolation quotient is non-negative, `int()`
truncation toward zero coincides with mathematical floor (both pointwise
and for the whole function), and every finite returned year is at least
`prev_year + 1`. -/
theorem c8_invariant_trunc_eq_floor (t : ℚ) (ht : t ≤ 0) (series : List (ℤ × Option ℚ))
    (hs : List.Pairwise (fun a b : ℤ × Option ℚ => a.1 < b.1) series) :
    year_of_net_zero series t = year_of_net_zero_floor series t ∧
    (∀ c, crossState series t = some c → t ≤ c.prevVal ∧
      (∀ p, c.prevYr = some p →
        0 ≤ (t - c.prevVal) / ((c.val - c.prevVal) / ((c.yr : ℚ) - (p : ℚ))) ∧
        truncQ ((t - c.prevVal) / ((c.val - c.prevVal) / ((c.yr : ℚ) - (p : ℚ)))) =
          ⌊(t - c.prevVal) / ((c.val - c.prevVal) / ((c.yr : ℚ) - (p : ℚ)))⌋ ∧
        ∀ z, year_of_net_zero series t = NZResult.year z → p + 1 ≤ z)) := by
  have hspec := crossGo_spec t series 0 none ht (by simp) hs
  constructor
  · exact netZeroGo_eq_floor t series 0 none ht (by simp) hs
  · intro c hc
    obtain ⟨hpv, hval, hplt⟩ := hspec.1 c hc
    refine ⟨hpv, fun p hp => ?_⟩
    have hylt : p < c.yr := hplt p hp
    have hq : 0 ≤ (t - c.prevVal) / ((c.val - c.prevVal) / ((c.yr : ℚ) - (p : ℚ))) :=
      quot_nonneg hval hpv (by exact_mod_cast hylt)
    refine ⟨hq, truncQ_eq_floor hq, fun z hz => ?_⟩
    have heq := hspec.2.1 c hc
    rw [hp] at heq
    simp only [] at heq
    have hz' : NZResult.year
        (p + truncQ ((t - c.prevVal) / ((c.val - c.prevVal) / ((c.yr : ℚ) - (p : ℚ)))) + 1) =
        NZResult.year z := by
      rw [← heq]; exact hz
    have hzz : p + truncQ ((t - c.prevVal) / ((c.val - c.prevVal) / ((c.yr : ℚ) - (p : ℚ)))) + 1
        = z := by simpa using hz'
    have h0 : 0 ≤ truncQ ((t - c.prevVal) / ((c.val - c.prevVal) / ((c.yr : ℚ) - (p : ℚ)))) := by
      rw [truncQ_eq_floor hq]
      exact Int.floor_nonneg.mpr hq
    omega

/-- Witness for C8 at a concrete decreasing series crossing zero. -/
theorem c8_witness :
    year_of_net_zero [((2020 : ℤ), some (1 : ℚ)), (2030, some (-1))] 0 =
      year_of_net_zero_floor [((2020 : ℤ), some (1 : ℚ)), (2030, some (-1))] 0 :=
  (c8_invariant_trunc_eq_floor 0 le_rfl _ (by norm_num [List.pairwise_cons])).1

/-- Claim C9: on a series whose years are strictly increasing, the result
equals the crossing search over the pairs sorted by year, and every finite
returned crossing year lies strictly after the last at-or-above-threshold
year and at or before the first below-threshold year. -/
theorem c9_sorted_and_bracketed (t : ℚ) (ht : t ≤ 0) (series : List (ℤ × Option ℚ))
    (hs : List.Pairwise (fun a b : ℤ × Option ℚ => a.1 < b.1) series) :
    year_of_net_zero (sortByYear series) t = year_of_net_zero series t ∧
    (∀ c, crossState series t = some c → ∀ p, c.prevYr = some p →
      ∀ z, year_of_net_zero series t = NZResult.year z → p < z ∧ z ≤ c.yr) := by
  constructor
  · have hsorted : List.Sorted (fun a b : ℤ × Option ℚ => a.1 ≤ b.1) series :=
      hs.imp le_of_lt
    rw [sortByYear, hsorted.insertionSort_eq]
  · intro c hc p hp z hz
    have hspec := crossGo_spec t series 0 none ht (by simp) hs
    obtain ⟨hpv, hval, hplt⟩ := hspec.1 c hc
    have hylt : p < c.yr := hplt p hp
    have hylt' : ((p : ℚ)) < ((c.yr : ℚ)) := by exact_mod_cast hylt
    have hq0 : 0 ≤ (t - c.prevVal) / ((c.val - c.prevVal) / ((c.yr : ℚ) - (p : ℚ))) :=
      quot_nonneg hval hpv hylt'
    have hqlt : (t - c.prevVal) / ((c.val - c.prevVal) / ((c.yr : ℚ) - (p : ℚ))) <
        (c.yr : ℚ) - (p : ℚ) := quot_lt hval hpv hylt'
    have heq := hspec.2.1 c hc
    rw [hp] at heq
    simp only [] at heq
    have hz' : NZResult.year
        (p + truncQ ((t - c.prevVal) / ((c.val - c.prevVal) / ((c.yr : ℚ) - (p : ℚ)))) + 1) =
        NZResult.year z := by
      rw [← heq]; exact hz
    have hzz : p + truncQ ((t - c.prevVal) / ((c.val - c.prevVal) / ((c.yr : ℚ) - (p : ℚ)))) + 1
        = z := by simpa using hz'
    rw [truncQ_eq_floor hq0] at hzz
    have h0 : 0 ≤ ⌊(t - c.prevVal) / ((c.val - c.prevVal) / ((c.yr : ℚ) - (p : ℚ)))⌋ :=
      Int.floor_nonneg.mpr hq0
    have hlt : ⌊(t - c.prevVal) / ((c.val - c.prevVal) / ((c.yr : ℚ) - (p : ℚ)))⌋ < c.yr - p := by
      rw [Int.floor_lt]
      push_cast
      linarith
    omega

/-- Witness for C9 at a concrete increasing-year series. -/
theorem c9_witness :
    year_of_net_zero (sortByYear [((2000 : ℤ), some (2 : ℚ)), (2010, some (-3))]) 0 =
      year_of_net_zero [((2000 : ℤ), some (2 : ℚ)), (2010, some (-3))] 0 :=
  (c9_sorted_and_bracketed 0 le_rfl _ (by norm_num [List.pairwise_cons])).1

/-- Claim C3: a cell of the produced summary table shows the full range
exactly when it has between 1 and 6 contributing scenarios, and the
interquartile range with the median exactly when it has 7 or more — the
boundary is exactly at count 7 (count of non-missing contributions). -/
theorem c3_boundary_at_seven (vals : List (Option ℚ)) :
    ((∃ lo hi, formatCell vals = Cell.fullRange lo hi) ↔
      1 ≤ countValid vals ∧ countValid vals < 7) ∧
    ((∃ q1 med q3, formatCell vals = Cell.iqrMedian q1 med q3) ↔ 7 ≤ countValid vals) := by
  have hcount := countValid_eq_length_validValues vals
  simp only [formatCell]
  split_ifs with h0 h7 <;>
    constructor <;> simp [hcount, h0] <;> omega

/-- Witness for C3 at cohorts of exactly 6 and exactly 7 scenarios. -/
theorem c3_witness :
    (∃ lo hi,
      formatCell [some (1 : ℚ), some 2, some 3, some 4, some 5, some 6] =
        Cell.fullRange lo hi) ∧
    (∃ q1 med q3,
      formatCell [some (1 : ℚ), some 2, some 3, some 4, some 5, some 6, some 7] =
        Cell.iqrMedian q1 med q3) :=
  ⟨(c3_boundary_at_seven _).1.mpr (by decide),
   (c3_boundary_at_seven _).2.mpr (by decide)⟩

end SR15
